import Mathlib

/-!
Verification of the comment-to-issue action (src/unnamed/part_000).

The development shallowly embeds the TypeScript source: `extractComments`
(including the shared global-regex scan state `lastIndex`), the key codec
(`Buffer.from(...).toString('base64')` over UTF-8 bytes), issue-body
generation (`generateIssueContent`), key recovery (`parseIssueKey`, i.e.
`body.match(/Key: (.*)/)`), and the reconciliation decisions made by `run`
(update / create / close). Prefixes are modelled as literal strings, which is
how the action is meant to be configured (`TODO`, `FIXME`, ...).
-/

namespace C2I

/-- Character class of the JavaScript regex escape `\s` (whitespace). -/
def isJsWS (c : Char) : Bool :=
  c == ' ' || c == '\t' || c == '\n' || c == '\r' || c == '\x0b' || c == '\x0c' ||
  c == ' ' || c == ' ' || (' ' ≤ c && c ≤ ' ') || c == ' ' ||
  c == ' ' || c == ' ' || c == ' ' || c == '　' || c == '﻿'

/-- Line terminators, the characters NOT matched by the JavaScript regex `.`. -/
def isLineTerm (c : Char) : Bool :=
  c == '\n' || c == '\r' || c == ' ' || c == ' '

/-- Boolean list-level "starts with" used by the regex model. -/
def startsWithL : List Char → List Char → Bool
  | [], _ => true
  | _ :: _, [] => false
  | p :: ps, c :: cs => p == c && startsWithL ps cs

/-- Boolean substring occurrence test (pattern occurs somewhere in the list). -/
def occursIn (pat : List Char) : List Char → Bool
  | [] => startsWithL pat []
  | c :: t => startsWithL pat (c :: t) || occursIn pat t

/-- Model of JavaScript `str.split('\n')` on the character list. -/
def splitLinesL : List Char → List (List Char)
  | [] => [[]]
  | c :: t =>
      let r := splitLinesL t
      if c == '\n' then [] :: r else (c :: r.headD []) :: r.tail

/-- UTF-8 byte sequence of one character, as `Buffer.from` encodes it. -/
def utf8Bytes (c : Char) : List Nat :=
  let n := c.toNat
  if n < 128 then [n]
  else if n < 2048 then [192 + n / 64, 128 + n % 64]
  else if n < 65536 then [224 + n / 4096, 128 + n / 64 % 64, 128 + n % 64]
  else [240 + n / 262144, 128 + n / 4096 % 64, 128 + n / 64 % 64, 128 + n % 64]

/-- UTF-8 bytes of a whole string. -/
def stringUtf8 (s : String) : List Nat :=
  (s.data.map utf8Bytes).flatten

/-- The base64 alphabet used by `Buffer.toString('base64')`. -/
def base64Chars : List Char :=
  "ABCDEFGHIJKLMNOPQRSTUVWXYZabcdefghijklmnopqrstuvwxyz0123456789+/".data

/-- Digit lookup into the base64 alphabet. -/
def b64At (n : Nat) : Char := base64Chars.getD n 'A'

/-- Standard base64 encoding of a byte list, with `=` padding. -/
def base64EncodeList : List Nat → List Char
  | [] => []
  | [b1] => [b64At (b1 / 4), b64At (b1 % 4 * 16), '=', '=']
  | [b1, b2] => [b64At (b1 / 4), b64At (b1 % 4 * 16 + b2 / 16), b64At (b2 % 16 * 4), '=']
  | b1 :: b2 :: b3 :: rest =>
      b64At (b1 / 4) :: b64At (b1 % 4 * 16 + b2 / 16) ::
        b64At (b2 % 16 * 4 + b3 / 64) :: b64At (b3 % 64) :: base64EncodeList rest

/-- Model of `Buffer.from(s).toString('base64')`. -/
def base64Encode (s : String) : String :=
  String.mk (base64EncodeList (stringUtf8 s))

/-- The `Comment` interface of the source (an extracted annotation occurrence). -/
structure Comment where
  type : String
  content : String
  file : String
  line : Nat
  message : String
  key : String
deriving DecidableEq, Repr

/-- The `GitHubIssue` interface of the source (a fetched tracker issue). -/
structure GitHubIssue where
  id : Nat
  title : String
  body : String
  key : String
deriving DecidableEq, Repr

/-- At a fixed position, the regex alternation `(p1|p2|...):` matches iff some
configured comment marker followed by a colon starts here; alternatives are
tried in list order, exactly as the regex engine tries `p1|p2|...`. -/
def matchPrefixAt (pfxs : List String) (s : List Char) : Option String :=
  pfxs.find? (fun p => startsWithL (p.data ++ [':']) s)

/-- One `commentRegex.exec` search step: scan rightwards from absolute position
`pos` (whose suffix is `s`) for the leftmost match of `(p1|p2|...):\s*(.*)`.
Returns the matched marker (capture 1), the content (capture 2, which the
greedy `.*` extends to the next line terminator or the end of the line), and
the regex's new `lastIndex` (the end of the whole match). -/
def scanFrom (pfxs : List String) : List Char → Nat → Option (String × List Char × Nat)
  | [], _ => none
  | c :: t, pos =>
      match matchPrefixAt pfxs (c :: t) with
      | some p =>
          let rest := (c :: t).drop (p.data.length + 1)
          let ws := rest.takeWhile isJsWS
          let content := (rest.drop ws.length).takeWhile (fun ch => !isLineTerm ch)
          some (p, content, pos + p.data.length + 1 + ws.length + content.length)
      | none => scanFrom pfxs t (pos + 1)

/-- One `exec` call against `line` with the regex object holding `lastIndex`:
no match is possible when `lastIndex` exceeds the line length. -/
def execLine (pfxs : List String) (line : List Char) (lastIndex : Nat) :
    Option (String × List Char × Nat) :=
  if lastIndex ≤ line.length then scanFrom pfxs (line.drop lastIndex) lastIndex else none

/-- The `while ((match = commentRegex.exec(line)) !== null)` loop: collect the
matches of one line, threading `lastIndex`; a `null` result resets
`lastIndex` to 0 (JavaScript global-regex semantics). The fuel argument is a
bound on the number of iterations; every match consumes at least one
character, so `line.length + 2` is always enough. -/
def execLoop (pfxs : List String) (line : List Char) : Nat → Nat → List (String × List Char) × Nat
  | 0, li => ([], li)
  | fuel + 1, li =>
      match execLine pfxs line li with
      | none => ([], 0)
      | some (t, c, li') =>
          let r := execLoop pfxs line fuel li'
          ((t, c) :: r.1, r.2)

/-- The context slice `lines.slice(Math.max(index-5,0), Math.min(index+5, lines.length-1)+1)`. -/
def contextSlice (lines : List String) (index : Nat) : List String :=
  let contextStart := index - 5
  let contextEnd := min (index + 5) (lines.length - 1)
  (lines.drop contextStart).take (contextEnd + 1 - contextStart)

/-- The comment record pushed for one regex match on the line at `index`. -/
def mkComment (filePath : String) (lines : List String) (index : Nat)
    (t : String) (content : List Char) : Comment :=
  { type := t
    content := String.mk content
    file := filePath
    line := index + 1
    message := String.intercalate "\n" (contextSlice lines index)
    key := base64Encode (filePath ++ ":" ++ toString (index + 1)) }

/-- The `lines.forEach` of `extractComments`: scan each line in order with the
single shared regex object, threading its `lastIndex` across lines. -/
def extractLines (pfxs : List String) (filePath : String) (allLines : List String) :
    Nat → List String → Nat → List Comment
  | _, [], _ => []
  | i, line :: rest, li =>
      let r := execLoop pfxs line.data (line.data.length + 2) li
      r.1.map (fun tc => mkComment filePath allLines i tc.1 tc.2) ++
        extractLines pfxs filePath allLines (i + 1) rest r.2

/-- The `fileContent.split('\n')` of the source, as a list of line strings. -/
def linesOf (fileContent : String) : List String :=
  (splitLinesL fileContent.data).map (fun l => String.mk l)

/-- The source's `extractComments(fileContent, filePath, prefixes)`. -/
def extractComments (fileContent : String) (filePath : String) (pfxs : List String) :
    List Comment :=
  extractLines pfxs filePath (linesOf fileContent) 0 (linesOf fileContent) 0

/-- Collect the characters after the last `/` (accumulator reversed per segment). -/
def basenameAux : List Char → List Char → List Char
  | [], acc => acc.reverse
  | c :: t, acc => if c == '/' then basenameAux t [] else basenameAux t (c :: acc)

/-- Model of `path.basename` as used in the generated title (last path
segment; source file paths never end in a separator). -/
def basename (p : String) : String := String.mk (basenameAux p.data [])

/-- The fixed key-marker text `"Key: "` that `parseIssueKey` searches for. -/
def keyMarker : List Char := ['K', 'e', 'y', ':', ' ']

/-- The part of the generated description that precedes `"Key: " ++ key`. -/
def descPre (c : Comment) : String :=
  "Found a " ++ c.type ++ " comment:\n\n> " ++ c.content ++ "\n\nContext:\n" ++
    c.message ++
    "\n\nThis issue was generated automatically from a source code comment.\n\n=== DO NOT REMOVE ===\n"

/-- The source's `generateIssueContent` (its value is a pure template). -/
def generateIssueContent (c : Comment) : String × String :=
  (c.type ++ " in " ++ basename c.file ++ " at line " ++ toString c.line,
   descPre c ++ ("Key: " ++ c.key))

/-- Scan a character list for the first occurrence of `"Key: "`; the capture
`(.*)` extends from right after it to the next line terminator. -/
def parseKeyFrom : List Char → Option (List Char)
  | [] => none
  | c :: t =>
      if startsWithL keyMarker (c :: t) then
        some ((t.drop 4).takeWhile (fun ch => !isLineTerm ch))
      else parseKeyFrom t

/-- The source's `parseIssueKey`: `body.match(/Key: (.*)/)`, first match wins,
empty string when the marker is absent. -/
def parseIssueKey (body : String) : String :=
  match parseKeyFrom body.data with
  | some k => String.mk k
  | none => ""

/-- The per-comment matching step of `run`:
`existingIssues.find(issue => issue.key === comment.key)`. -/
def decideComment (issues : List GitHubIssue) (c : Comment) : Option GitHubIssue :=
  issues.find? (fun i => i.key == c.key)

/-- The update decisions of `run`: each comment paired with the first existing
issue carrying its key, in comment order. -/
def updatesOf (comments : List Comment) (issues : List GitHubIssue) :
    List (Comment × GitHubIssue) :=
  comments.filterMap (fun c => (decideComment issues c).map (fun i => (c, i)))

/-- The create decisions of `run`: the comments with no matching existing issue. -/
def createsOf (comments : List Comment) (issues : List GitHubIssue) : List Comment :=
  comments.filter (fun c => (decideComment issues c).isNone)

/-- The close decisions of `run`:
`existingIssues.filter(issue => !foundComments.some(comment => comment.key === issue.key))`. -/
def closesOf (comments : List Comment) (issues : List GitHubIssue) : List GitHubIssue :=
  issues.filter (fun i => !comments.any (fun c => c.key == i.key))

/-- The `updateGitHubIssue` calls dispatched by `run` (issue id, fresh title, fresh body). -/
def updateCalls (comments : List Comment) (issues : List GitHubIssue) :
    List (Nat × String × String) :=
  (updatesOf comments issues).map
    (fun p => (p.2.id, (generateIssueContent p.1).1, (generateIssueContent p.1).2))

/-- The `createGitHubIssue` calls dispatched by `run` (fresh title, fresh body). -/
def createCalls (comments : List Comment) (issues : List GitHubIssue) :
    List (String × String) :=
  (createsOf comments issues).map generateIssueContent

/-- The `closeGithubIssue` calls dispatched by `run` (issue ids). -/
def closeCalls (comments : List Comment) (issues : List GitHubIssue) : List Nat :=
  (closesOf comments issues).map (fun i => i.id)

/-- Tracker effect of one update call: the issue with that id gets the new
title and body; its key, as `fetchExistingIssues` would next parse it, is
re-derived from the new body. -/
def applyUpdate (u : Nat × String × String) (st : List GitHubIssue) : List GitHubIssue :=
  st.map (fun i =>
    if i.id = u.1 then
      { id := i.id, title := u.2.1, body := u.2.2, key := parseIssueKey u.2.2 }
    else i)

/-- The issues that remain open after one run: every update call applied (in
call order), then every closed id removed. -/
def survivingIssues (comments : List Comment) (issues : List GitHubIssue) :
    List GitHubIssue :=
  ((updateCalls comments issues).foldl (fun st u => applyUpdate u st) issues).filter
    (fun i => !(closeCalls comments issues).contains i.id)

/-- The issues the tracker holds for this run's create calls: tracker-assigned
fresh ids, and keys as `fetchExistingIssues` would next parse them from the
generated bodies. -/
def createdIssues (comments : List Comment) (issues : List GitHubIssue)
    (freshIds : Nat → Nat) : List GitHubIssue :=
  (createCalls comments issues).enum.map
    (fun p => { id := freshIds p.1, title := p.2.1, body := p.2.2,
                key := parseIssueKey p.2.2 })

/-- Tracker state after one run's actions: updates rewrite matched issues,
closed issues disappear, created issues are added. -/
def applyActionsState (comments : List Comment) (issues : List GitHubIssue)
    (freshIds : Nat → Nat) : List GitHubIssue :=
  survivingIssues comments issues ++ createdIssues comments issues freshIds

/-- Keys of the current comment set (the annotation keys). -/
def commentKeys (comments : List Comment) : Finset String :=
  (comments.map (fun c => c.key)).toFinset

/-- Keys of the existing issue set. -/
def issueKeys (issues : List GitHubIssue) : Finset String :=
  (issues.map (fun i => i.key)).toFinset

/-- Keys for which `run` emits an update action. -/
def matchedKeys (comments : List Comment) (issues : List GitHubIssue) : Finset String :=
  ((updatesOf comments issues).map (fun p => p.1.key)).toFinset

/-- Keys for which `run` emits a create action. -/
def createKeys (comments : List Comment) (issues : List GitHubIssue) : Finset String :=
  ((createsOf comments issues).map (fun c => c.key)).toFinset

/-- Keys for which `run` emits a close action. -/
def closeKeys (comments : List Comment) (issues : List GitHubIssue) : Finset String :=
  ((closesOf comments issues).map (fun i => i.key)).toFinset

/-- The remote calls `run` performs after reconciling, in program order:
update/create per comment, then the closes. -/
inductive Action where
  | create (title : String) (body : String)
  | update (id : Nat) (title : String) (body : String)
  | close (id : Nat)
deriving DecidableEq, Repr

/-- The gateway action taken for one comment. -/
def actionOf (issues : List GitHubIssue) (c : Comment) : Action :=
  match decideComment issues c with
  | some i => .update i.id (generateIssueContent c).1 (generateIssueContent c).2
  | none => .create (generateIssueContent c).1 (generateIssueContent c).2

/-- All gateway actions of one run, in the order the source performs them. -/
def actionList (comments : List Comment) (issues : List GitHubIssue) : List Action :=
  comments.map (actionOf issues) ++ (closesOf comments issues).map (fun i => .close i.id)

/-- Sequential execution of gateway actions under the single try/catch of
`run`: a throwing call is the last one attempted; the error escapes to the
catch block and every later action is skipped. Returns the attempted actions
and the error (if any) that `core.setFailed` reports. -/
def execActions (g : Action → Except String Unit) :
    List Action → List Action × Option String
  | [] => ([], none)
  | a :: rest =>
      match g a with
      | .ok _ =>
          let r := execActions g rest
          (a :: r.1, r.2)
      | .error m => ([a], some m)

/-- The per-file extraction loop of `run` inside its single try/catch: a file
whose read throws aborts the whole loop, losing the comments of every
remaining file. Returns the extracted comments or the escaping error. -/
def extractAll (readFile : String → Except String String)
    (pfxs : List String) : List String → Except String (List Comment)
  | [] => .ok []
  | f :: rest =>
      match readFile f with
      | .error e => .error e
      | .ok content =>
          match extractAll readFile pfxs rest with
          | .error e => .error e
          | .ok cs => .ok (extractComments content f pfxs ++ cs)

/-- Spec-side extraction loop: every line is scanned with a fresh `lastIndex`
of 0, i.e. "a pure scanning function returning a fresh match iterator per
line" in the spec's words. -/
def extractLinesFresh (pfxs : List String) (filePath : String) (allLines : List String) :
    Nat → List String → List Comment
  | _, [] => []
  | i, line :: rest =>
      let r := execLoop pfxs line.data (line.data.length + 2) 0
      r.1.map (fun tc => mkComment filePath allLines i tc.1 tc.2) ++
        extractLinesFresh pfxs filePath allLines (i + 1) rest

/-- Spec-side `extractComments`: stateless per-line scanning. -/
def extractCommentsFresh (fileContent : String) (filePath : String) (pfxs : List String) :
    List Comment :=
  extractLinesFresh pfxs filePath (linesOf fileContent) 0 (linesOf fileContent)

theorem startsWithL_le_length {p s : List Char} (h : startsWithL p s = true) :
    p.length ≤ s.length := by
  induction p generalizing s with
  | nil => simp
  | cons a ps ih =>
      cases s with
      | nil => simp [startsWithL] at h
      | cons b t =>
          simp only [startsWithL, Bool.and_eq_true] at h
          have := ih h.2
          simpa using Nat.succ_le_succ this

theorem scanFrom_bounds (pfxs : List String) :
    ∀ (s : List Char) (pos : Nat) (t : String) (c : List Char) (li : Nat),
      scanFrom pfxs s pos = some (t, c, li) → pos < li ∧ li ≤ pos + s.length := by
  intro s
  induction s with
  | nil => intro pos t c li h; simp [scanFrom] at h
  | cons ch tl ih =>
      intro pos t c li h
      rw [scanFrom] at h
      cases hm : matchPrefixAt pfxs (ch :: tl) with
      | some p =>
          rw [hm] at h
          simp only [Option.some.injEq, Prod.mk.injEq] at h
          obtain ⟨-, -, hli⟩ := h
          have hm' : pfxs.find? (fun q => startsWithL (q.data ++ [':']) (ch :: tl)) = some p :=
            hm
          have hstart := List.find?_some hm'
          simp only [] at hstart
          have hlen : p.data.length + 1 ≤ tl.length + 1 := by
            have := startsWithL_le_length hstart
            simpa using this
          have hws : (((ch :: tl).drop (p.data.length + 1)).takeWhile isJsWS).length ≤
              ((ch :: tl).drop (p.data.length + 1)).length :=
            (List.takeWhile_prefix _).length_le
          have hct :
              ((((ch :: tl).drop (p.data.length + 1)).drop
                  (((ch :: tl).drop (p.data.length + 1)).takeWhile isJsWS).length).takeWhile
                (fun ch => !isLineTerm ch)).length ≤
              (((ch :: tl).drop (p.data.length + 1)).drop
                  (((ch :: tl).drop (p.data.length + 1)).takeWhile isJsWS).length).length :=
            (List.takeWhile_prefix _).length_le
          simp only [List.length_drop, List.length_cons] at hws hct ⊢
          omega
      | none =>
          rw [hm] at h
          have := ih (pos + 1) t c li h
          simp only [List.length_cons]
          omega

theorem execLine_bounds (pfxs : List String) (line : List Char) (lastIndex : Nat)
    (t : String) (c : List Char) (li : Nat)
    (h : execLine pfxs line lastIndex = some (t, c, li)) :
    lastIndex < li ∧ li ≤ line.length := by
  rw [execLine] at h
  split at h
  · have := scanFrom_bounds pfxs (line.drop lastIndex) lastIndex t c li h
    simp only [List.length_drop] at this
    omega
  · simp at h

theorem execLoop_snd_zero (pfxs : List String) (line : List Char) :
    ∀ (fuel li : Nat), li ≤ line.length → line.length + 2 ≤ li + fuel →
      (execLoop pfxs line fuel li).2 = 0 := by
  intro fuel
  induction fuel with
  | zero => intro li h1 h2; omega
  | succ n ih =>
      intro li h1 h2
      rw [execLoop]
      cases he : execLine pfxs line li with
      | none => rfl
      | some r =>
          obtain ⟨t, c, li'⟩ := r
          have hb := execLine_bounds pfxs line li t c li' he
          simpa using ih li' hb.2 (by omega)

theorem extractLines_eq_fresh (pfxs : List String) (filePath : String)
    (allLines : List String) :
    ∀ (rest : List String) (i : Nat),
      extractLines pfxs filePath allLines i rest 0 =
        extractLinesFresh pfxs filePath allLines i rest := by
  intro rest
  induction rest with
  | nil => intro i; rfl
  | cons line tl ih =>
      intro i
      rw [extractLines, extractLinesFresh]
      have hz : (execLoop pfxs line.data (line.data.length + 2) 0).2 = 0 :=
        execLoop_snd_zero pfxs line.data (line.data.length + 2) 0 (by omega) (by omega)
      rw [hz, ih]

theorem extractLines_mem (pfxs : List String) (filePath : String) (allLines : List String) :
    ∀ (rest : List String) (i li : Nat) (c : Comment),
      c ∈ extractLines pfxs filePath allLines i rest li →
      ∃ j, i ≤ j ∧ j < i + rest.length ∧
        ∃ t cont, c = mkComment filePath allLines j t cont := by
  intro rest
  induction rest with
  | nil => intro i li c h; simp [extractLines] at h
  | cons line tl ih =>
      intro i li c h
      rw [extractLines] at h
      rcases List.mem_append.1 h with hl | hr
      · obtain ⟨tc, -, rfl⟩ := List.mem_map.1 hl
        exact ⟨i, le_refl i, by simp, tc.1, tc.2, rfl⟩
      · obtain ⟨j, hj1, hj2, t, cont, rfl⟩ := ih (i + 1) _ c hr
        exact ⟨j, by omega, by simp only [List.length_cons]; omega, t, cont, rfl⟩

theorem extractComments_mem (fileContent filePath : String) (pfxs : List String)
    (c : Comment) (hc : c ∈ extractComments fileContent filePath pfxs) :
    ∃ j, j < (linesOf fileContent).length ∧
      ∃ t cont, c = mkComment filePath (linesOf fileContent) j t cont := by
  obtain ⟨j, -, hj2, t, cont, rfl⟩ :=
    extractLines_mem pfxs filePath (linesOf fileContent) (linesOf fileContent) 0 0 c hc
  exact ⟨j, by omega, t, cont, rfl⟩

theorem contextSlice_length (lines : List String) (i : Nat) (h : i < lines.length) :
    (contextSlice lines i).length = min i 5 + 1 + min (lines.length - 1 - i) 5 := by
  simp only [contextSlice, List.length_take, List.length_drop]
  omega

theorem utf8Bytes_ne_nil (c : Char) : utf8Bytes c ≠ [] := by
  rw [utf8Bytes]
  split
  · simp
  · split
    · simp
    · split
      · simp
      · simp

theorem stringUtf8_ne_nil (s : String) (h : s.data ≠ []) : stringUtf8 s ≠ [] := by
  rw [stringUtf8]
  cases hd : s.data with
  | nil => exact absurd hd h
  | cons c t =>
      simp only [List.map_cons, List.flatten_cons, ne_eq, List.append_eq_nil]
      intro hcontra
      exact utf8Bytes_ne_nil c hcontra.1

theorem base64EncodeList_ne_nil (bs : List Nat) (h : bs ≠ []) : base64EncodeList bs ≠ [] := by
  match bs with
  | [] => exact absurd rfl h
  | [b1] => simp [base64EncodeList]
  | [b1, b2] => simp [base64EncodeList]
  | b1 :: b2 :: b3 :: rest => simp [base64EncodeList]

theorem base64Encode_ne_empty (s : String) (h : s.data ≠ []) : base64Encode s ≠ "" := by
  rw [base64Encode]
  intro hcontra
  have : base64EncodeList (stringUtf8 s) = [] := by
    have := congrArg String.data hcontra
    simpa using this
  exact base64EncodeList_ne_nil _ (stringUtf8_ne_nil s h) this

theorem key_arg_data_ne_nil (fp : String) (n : Nat) :
    (fp ++ ":" ++ toString n).data ≠ [] := by
  simp only [String.data_append]
  intro h
  have := congrArg List.length h
  simp [String.data_append] at this

/-- C1 (counterexample): on the line `// TODO: x FIXME: y` with prefixes
`["TODO", "FIXME"]`, `extractComments` does NOT return two Annotations with
contents `x` and `y`: it returns a single Annotation, because the greedy
capture `(.*)` of the regex `(TODO|FIXME):\s*(.*)` consumes the rest of the
line (including ` FIXME: y`) and leaves the scanner past the second marker. -/
theorem claim1_counterexample :
    (extractComments "// TODO: x FIXME: y" "f.ts" ["TODO", "FIXME"]).length ≠ 2 ∧
    (extractComments "// TODO: x FIXME: y" "f.ts" ["TODO", "FIXME"]).map
      (fun c => (c.type, c.content)) ≠ [("TODO", "x"), ("FIXME", "y")] := by
  constructor
  · decide
  · decide

/-- C1 (amended): on the line `// TODO: x FIXME: y` with prefixes
`["TODO", "FIXME"]`, extraction yields exactly ONE Annotation, of type `TODO`
and content `x FIXME: y` (everything after the first marker up to the end of
the line): a line yields at most one Annotation per contained line
terminator plus one, not one per prefix occurrence. -/
theorem claim1_single_match :
    extractComments "// TODO: x FIXME: y" "f.ts" ["TODO", "FIXME"] =
      [{ type := "TODO", content := "x FIXME: y", file := "f.ts", line := 1,
         message := "// TODO: x FIXME: y", key := "Zi50czox" }] := by
  decide

/-- C8 (confirmed): every Annotation produced by `extractComments` carries as
`message` the inclusive window of lines `[i-5, i+5]` clipped to the file
bounds, where `i` is the 0-based index of its line; the window's line count
is exactly `min i 5 + 1 + min (N-1-i) 5` for a file of `N` lines, and that
count is always between 1 and 11. -/
theorem claim8_context_bounds (fileContent filePath : String) (pfxs : List String)
    (c : Comment) (hc : c ∈ extractComments fileContent filePath pfxs) :
    ∃ i, i < (linesOf fileContent).length ∧ c.line = i + 1 ∧
      c.message = String.intercalate "\n" (contextSlice (linesOf fileContent) i) ∧
      (contextSlice (linesOf fileContent) i).length =
        min i 5 + 1 + min ((linesOf fileContent).length - 1 - i) 5 ∧
      1 ≤ (contextSlice (linesOf fileContent) i).length ∧
      (contextSlice (linesOf fileContent) i).length ≤ 11 := by
  obtain ⟨j, hj, t, cont, rfl⟩ := extractComments_mem fileContent filePath pfxs c hc
  refine ⟨j, hj, rfl, rfl, contextSlice_length _ _ hj, ?_, ?_⟩
  · rw [contextSlice_length _ _ hj]; omega
  · rw [contextSlice_length _ _ hj]; omega

/-- C8 (witness): the bounds instantiated on a concrete three-line file whose
middle line holds the annotation. -/
theorem claim8_witness :
    ∃ i, i < (linesOf "a\nTODO: x\nb").length ∧ (2 : Nat) = i + 1 ∧
      "a\nTODO: x\nb" = String.intercalate "\n" (contextSlice (linesOf "a\nTODO: x\nb") i) ∧
      (contextSlice (linesOf "a\nTODO: x\nb") i).length =
        min i 5 + 1 + min ((linesOf "a\nTODO: x\nb").length - 1 - i) 5 ∧
      1 ≤ (contextSlice (linesOf "a\nTODO: x\nb") i).length ∧
      (contextSlice (linesOf "a\nTODO: x\nb") i).length ≤ 11 :=
  claim8_context_bounds "a\nTODO: x\nb" "f.ts" ["TODO"]
    { type := "TODO", content := "x", file := "f.ts", line := 2,
      message := "a\nTODO: x\nb", key := "Zi50czoy" } (by decide)

/-- C9 (confirmed): `extractComments` is a pure function of
`(fileContent, filePath, prefixes)` — determinism is immediate since the
embedding is a function of exactly those inputs — and although the source
shares one global regex object across the lines of a file (its `lastIndex`
is threaded through `extractLines`), no scan state ever carries over: every
`exec` loop ends with a `null` result that resets `lastIndex` to 0, so the
threaded scanner coincides with the stateless per-line scanner
`extractCommentsFresh`. Distinct calls (distinct files) build fresh regex
objects, so nothing carries between files either. -/
theorem claim9_extraction_stateless (fileContent filePath : String) (pfxs : List String) :
    extractComments fileContent filePath pfxs =
      extractCommentsFresh fileContent filePath pfxs := by
  rw [extractComments, extractCommentsFresh, extractLines_eq_fresh]

/-- C10 (confirmed): every key produced by `extractComments` is the base64
encoding of `"<filePath>:<line>"` with `line ≥ 1`, hence a non-empty string;
consequently such an Annotation never matches (via `run`'s
`existingIssues.find`) an issue whose parsed key is the empty string
(an orphaned/foreign issue). -/
theorem claim10_extracted_keys_nonempty (fileContent filePath : String)
    (pfxs : List String) (c : Comment) (hc : c ∈ extractComments fileContent filePath pfxs) :
    c.key ≠ "" ∧ c.key = base64Encode (filePath ++ ":" ++ toString c.line) ∧ 1 ≤ c.line ∧
    ∀ (issues : List GitHubIssue) (i : GitHubIssue), i ∈ issues → i.key = "" →
      decideComment issues c ≠ some i := by
  obtain ⟨j, hj, t, cont, rfl⟩ := extractComments_mem fileContent filePath pfxs c hc
  refine ⟨base64Encode_ne_empty _ (key_arg_data_ne_nil filePath _), rfl, by simp [mkComment], ?_⟩
  intro issues i hi hk heq
  have heq' : issues.find?
      (fun x => x.key == (mkComment filePath (linesOf fileContent) j t cont).key) = some i :=
    heq
  have hfound := List.find?_some heq'
  simp only [beq_iff_eq] at hfound
  have hne : (mkComment filePath (linesOf fileContent) j t cont).key ≠ "" :=
    base64Encode_ne_empty _ (key_arg_data_ne_nil filePath _)
  exact hne (hfound ▸ hk)

/-- C10 (witness): the non-emptiness facts instantiated on a concrete file. -/
theorem claim10_witness :
    ("Zi50czox" : String) ≠ "" ∧
    ("Zi50czox" : String) = base64Encode ("f.ts" ++ ":" ++ toString (1 : Nat)) ∧
    (1 : Nat) ≤ 1 ∧
    ∀ (issues : List GitHubIssue) (i : GitHubIssue), i ∈ issues → i.key = "" →
      decideComment issues
        { type := "TODO", content := "x", file := "f.ts", line := 1,
          message := "TODO: x", key := "Zi50czox" } ≠ some i :=
  claim10_extracted_keys_nonempty "TODO: x" "f.ts" ["TODO"]
    { type := "TODO", content := "x", file := "f.ts", line := 1,
      message := "TODO: x", key := "Zi50czox" } (by decide)

theorem strMkData (s : String) : String.mk s.data = s := by
  cases s
  rfl

theorem takeWhileEqSelf {p : Char → Bool} :
    ∀ (l : List Char), (∀ c ∈ l, p c = true) → l.takeWhile p = l := by
  intro l
  induction l with
  | nil => intro h; rfl
  | cons a t ih =>
      intro h
      rw [List.takeWhile_cons, h a (by simp)]
      simp [ih (fun c hc => h c (by simp [hc]))]

theorem getDMemOrEq : ∀ (l : List Char) (n : Nat) (d : Char), l.getD n d ∈ l ∨ l.getD n d = d := by
  intro l
  induction l with
  | nil => intro n d; right; simp
  | cons a t ih =>
      intro n d
      cases n with
      | zero => left; simp
      | succ m =>
          rcases ih m d with h | h
          · left; simpa using Or.inr h
          · right; simpa using h

theorem b64At_no_term (n : Nat) : isLineTerm (b64At n) = false := by
  have hall : ∀ c ∈ base64Chars, isLineTerm c = false := by decide
  rcases getDMemOrEq base64Chars n 'A' with h | h
  · rw [b64At]
    exact hall _ h
  · rw [b64At, h]
    decide

theorem startsWithL_self_append : ∀ (p rest : List Char), startsWithL p (p ++ rest) = true := by
  intro p
  induction p with
  | nil => intro rest; rfl
  | cons a t ih => intro rest; simp [startsWithL, ih]

theorem base64EncodeList_no_term :
    ∀ (bs : List Nat), ∀ ch ∈ base64EncodeList bs, isLineTerm ch = false
  | [] => by simp [base64EncodeList]
  | [b1] => by
      intro ch hch
      simp only [base64EncodeList, List.mem_cons, List.not_mem_nil, or_false] at hch
      rcases hch with rfl | rfl | rfl | rfl
      · exact b64At_no_term _
      · exact b64At_no_term _
      · decide
      · decide
  | [b1, b2] => by
      intro ch hch
      simp only [base64EncodeList, List.mem_cons, List.not_mem_nil, or_false] at hch
      rcases hch with rfl | rfl | rfl | rfl
      · exact b64At_no_term _
      · exact b64At_no_term _
      · exact b64At_no_term _
      · decide
  | b1 :: b2 :: b3 :: rest => by
      intro ch hch
      simp only [base64EncodeList, List.mem_cons] at hch
      rcases hch with rfl | rfl | rfl | rfl | hmem
      · exact b64At_no_term _
      · exact b64At_no_term _
      · exact b64At_no_term _
      · exact b64At_no_term _
      · exact base64EncodeList_no_term rest ch hmem

theorem base64Encode_no_term (s : String) :
    ∀ ch ∈ (base64Encode s).data, isLineTerm ch = false := by
  intro ch hch
  exact base64EncodeList_no_term _ ch hch

theorem startsWithL_midfalse (k' : List Char) (u : List Char) (hne : u ≠ [])
    (hocc : occursIn keyMarker u = false) :
    startsWithL keyMarker (u ++ (keyMarker ++ k')) = false := by
  rcases u with _ | ⟨a, _ | ⟨b, _ | ⟨c, _ | ⟨d, _ | ⟨e, rest⟩⟩⟩⟩⟩
  · exact absurd rfl hne
  · have h2 : ('e' == 'K') = false := rfl
    simp [keyMarker, startsWithL, h2]
  · have h2 : ('y' == 'K') = false := rfl
    simp [keyMarker, startsWithL, h2]
  · have h2 : ((':' : Char) == 'K') = false := rfl
    simp [keyMarker, startsWithL, h2]
  · have h2 : ((' ' : Char) == 'K') = false := rfl
    simp [keyMarker, startsWithL, h2]
  · have h1 : startsWithL keyMarker (a :: b :: c :: d :: e :: rest) = false := by
      rw [occursIn] at hocc
      exact (Bool.or_eq_false_iff.1 hocc).1
    have heq : startsWithL keyMarker ((a :: b :: c :: d :: e :: rest) ++ (keyMarker ++ k')) =
        startsWithL keyMarker (a :: b :: c :: d :: e :: rest) := by
      simp [keyMarker, startsWithL]
    rw [heq, h1]

theorem parseKeyFrom_append :
    ∀ (u k : List Char), occursIn keyMarker u = false →
      parseKeyFrom (u ++ (keyMarker ++ k)) =
        some (k.takeWhile (fun ch => !isLineTerm ch)) := by
  intro u
  induction u with
  | nil =>
      intro k _
      have hsw : startsWithL keyMarker (keyMarker ++ k) = true :=
        startsWithL_self_append keyMarker k
      have hcons : ([] : List Char) ++ (keyMarker ++ k) =
          'K' :: (['e', 'y', ':', ' '] ++ k) := rfl
      rw [hcons]
      rw [show startsWithL keyMarker (keyMarker ++ k) =
            startsWithL keyMarker ('K' :: (['e', 'y', ':', ' '] ++ k)) from rfl] at hsw
      rw [parseKeyFrom, hsw]
      rfl
  | cons x u' ih =>
      intro k h
      rw [occursIn] at h
      have h2 := (Bool.or_eq_false_iff.1 h).2
      have hmid : startsWithL keyMarker ((x :: u') ++ (keyMarker ++ k)) = false :=
        startsWithL_midfalse k (x :: u') (by simp) h
      have hcons : (x :: u') ++ (keyMarker ++ k) = x :: (u' ++ (keyMarker ++ k)) := rfl
      rw [hcons] at hmid
      rw [hcons, parseKeyFrom, hmid]
      simp only [Bool.false_eq_true, if_false]
      exact ih k h2

/-- C4 (counterexample): round-trip fails for an Annotation whose content
itself contains `"Key: "`. Extracting `TODO: Key: z` yields an Annotation
with content `Key: z`; its generated body quotes that content BEFORE the
`=== DO NOT REMOVE ===` marker, and `parseIssueKey` takes the FIRST
occurrence of `Key: `, returning `"z"` instead of the base64 key. -/
theorem claim4_counterexample :
    extractComments "TODO: Key: z" "f.ts" ["TODO"] =
      [{ type := "TODO", content := "Key: z", file := "f.ts", line := 1,
         message := "TODO: Key: z", key := "Zi50czox" }] ∧
    parseIssueKey
      (generateIssueContent
        { type := "TODO", content := "Key: z", file := "f.ts", line := 1,
          message := "TODO: Key: z", key := "Zi50czox" }).2 = "z" ∧
    ("z" : String) ≠ "Zi50czox" := by
  refine ⟨by decide, by decide, by decide⟩

/-- C4 (amended): for every Annotation produced by `extractComments` whose
generated description does not contain the text `"Key: "` anywhere before
the key line (i.e. neither the annotation's content nor its context window
smuggles in a premature marker), parsing the key back out of the generated
issue body recovers the annotation's key exactly. -/
theorem claim4_roundtrip (fileContent filePath : String) (pfxs : List String)
    (c : Comment) (hc : c ∈ extractComments fileContent filePath pfxs)
    (hclean : occursIn keyMarker (descPre c).data = false) :
    parseIssueKey (generateIssueContent c).2 = c.key := by
  have hdata : (generateIssueContent c).2.data =
      (descPre c).data ++ (keyMarker ++ c.key.data) := by
    show (descPre c ++ ("Key: " ++ c.key)).data = _
    rw [String.data_append, String.data_append]
    rfl
  rw [parseIssueKey, hdata, parseKeyFrom_append _ _ hclean]
  have hkey : ∀ ch ∈ c.key.data, (fun ch => !isLineTerm ch) ch = true := by
    obtain ⟨j, hj, t, cont, rfl⟩ := extractComments_mem fileContent filePath pfxs c hc
    intro ch hch
    simp only [Bool.not_eq_true']
    exact base64Encode_no_term _ ch hch
  rw [takeWhileEqSelf _ hkey]

/-- C4 (witness): the amended round-trip instantiated on a benign annotation. -/
theorem claim4_witness :
    parseIssueKey
      (generateIssueContent
        { type := "TODO", content := "x", file := "f.ts", line := 1,
          message := "TODO: x", key := "Zi50czox" }).2 = "Zi50czox" :=
  claim4_roundtrip "TODO: x" "f.ts" ["TODO"]
    { type := "TODO", content := "x", file := "f.ts", line := 1,
      message := "TODO: x", key := "Zi50czox" } (by decide) (by decide)

theorem decideComment_some {issues : List GitHubIssue} {c : Comment} {i : GitHubIssue}
    (h : decideComment issues c = some i) : i ∈ issues ∧ i.key = c.key := by
  have h' : issues.find? (fun x => x.key == c.key) = some i := h
  refine ⟨List.mem_of_find?_eq_some h', ?_⟩
  have := List.find?_some h'
  simpa using this

theorem decideComment_key_congr (issues : List GitHubIssue) {c c' : Comment}
    (h : c.key = c'.key) : decideComment issues c = decideComment issues c' := by
  rw [decideComment, decideComment, h]

theorem decideComment_isSome (issues : List GitHubIssue) (c : Comment) :
    (decideComment issues c).isSome = true ↔ ∃ i ∈ issues, i.key = c.key := by
  rw [decideComment, List.find?_isSome]
  simp

theorem decideComment_eq_none (issues : List GitHubIssue) (c : Comment) :
    decideComment issues c = none ↔ ∀ i ∈ issues, i.key ≠ c.key := by
  rw [decideComment, List.find?_eq_none]
  simp

theorem mem_updatesOf (comments : List Comment) (issues : List GitHubIssue)
    (c : Comment) (i : GitHubIssue) :
    (c, i) ∈ updatesOf comments issues ↔ c ∈ comments ∧ decideComment issues c = some i := by
  constructor
  · intro h
    obtain ⟨c', hc', hmap⟩ := List.mem_filterMap.1 h
    rcases hopt : decideComment issues c' with _ | i'
    · rw [hopt] at hmap; simp at hmap
    · rw [hopt] at hmap
      simp only [Option.map_some', Option.some.injEq, Prod.mk.injEq] at hmap
      obtain ⟨rfl, rfl⟩ := hmap
      exact ⟨hc', hopt⟩
  · rintro ⟨hc, hd⟩
    exact List.mem_filterMap.2 ⟨c, hc, by rw [hd]; rfl⟩

theorem mem_createsOf (comments : List Comment) (issues : List GitHubIssue) (c : Comment) :
    c ∈ createsOf comments issues ↔ c ∈ comments ∧ decideComment issues c = none := by
  simp [createsOf, List.mem_filter, Option.isNone_iff_eq_none]

theorem mem_closesOf (comments : List Comment) (issues : List GitHubIssue) (i : GitHubIssue) :
    i ∈ closesOf comments issues ↔ i ∈ issues ∧ ¬ ∃ c ∈ comments, c.key = i.key := by
  simp [closesOf, List.mem_filter, List.any_eq_true]

/-- C2 (counterexample): an issue with no recognizable key marker parses to the
empty key, and the close set of a reconciliation run DOES contain it: `run`
closes every existing issue whose key matches no current annotation, and an
empty key matches none (all extracted keys are non-empty base64 strings). -/
theorem claim2_counterexample :
    parseIssueKey "no marker here" = "" ∧
    ({ id := 1, title := "t", body := "no marker here", key := "" } : GitHubIssue) ∈
      closesOf (extractComments "TODO: x" "f.ts" ["TODO"])
        [{ id := 1, title := "t", body := "no marker here", key := "" }] := by
  refine ⟨by decide, by decide⟩

/-- C2 (amended): an existing issue whose body parses to the empty key is never
matched and never updated (as long as no current annotation carries an empty
key, which is true of every extracted annotation), but it IS always in the
close-action set computed by `run`. -/
theorem claim2_empty_key_closed (comments : List Comment) (issues : List GitHubIssue)
    (i : GitHubIssue) (hkeys : ∀ c ∈ comments, c.key ≠ "") (hi : i ∈ issues)
    (hk : i.key = "") :
    (∀ c ∈ comments, decideComment issues c ≠ some i) ∧
    (∀ p ∈ updatesOf comments issues, p.2 ≠ i) ∧
    i ∈ closesOf comments issues := by
  have hnomatch : ∀ c ∈ comments, decideComment issues c ≠ some i := by
    intro c hc heq
    have := (decideComment_some heq).2
    exact hkeys c hc (by rw [← this, hk])
  refine ⟨hnomatch, ?_, ?_⟩
  · intro p hp hpi
    obtain ⟨c, i'⟩ := p
    obtain ⟨hc, hd⟩ := (mem_updatesOf comments issues c i').1 hp
    simp only at hpi
    exact hnomatch c hc (hpi ▸ hd)
  · refine (mem_closesOf comments issues i).2 ⟨hi, ?_⟩
    rintro ⟨c, hc, hck⟩
    exact hkeys c hc (by rw [hck, hk])

/-- C2 (witness): the amended behavior on a concrete orphaned issue. -/
theorem claim2_witness :
    (∀ c ∈ extractComments "TODO: x" "f.ts" ["TODO"],
      decideComment [{ id := 1, title := "t", body := "no marker here", key := "" }] c ≠
        some { id := 1, title := "t", body := "no marker here", key := "" }) ∧
    (∀ p ∈ updatesOf (extractComments "TODO: x" "f.ts" ["TODO"])
        [{ id := 1, title := "t", body := "no marker here", key := "" }],
      p.2 ≠ { id := 1, title := "t", body := "no marker here", key := "" }) ∧
    ({ id := 1, title := "t", body := "no marker here", key := "" } : GitHubIssue) ∈
      closesOf (extractComments "TODO: x" "f.ts" ["TODO"])
        [{ id := 1, title := "t", body := "no marker here", key := "" }] :=
  claim2_empty_key_closed (extractComments "TODO: x" "f.ts" ["TODO"])
    [{ id := 1, title := "t", body := "no marker here", key := "" }]
    { id := 1, title := "t", body := "no marker here", key := "" }
    (by decide) (by decide) rfl

theorem mem_commentKeys (comments : List Comment) (k : String) :
    k ∈ commentKeys comments ↔ ∃ c ∈ comments, c.key = k := by
  simp [commentKeys]

theorem mem_issueKeys (issues : List GitHubIssue) (k : String) :
    k ∈ issueKeys issues ↔ ∃ i ∈ issues, i.key = k := by
  simp [issueKeys]

theorem mem_matchedKeys (comments : List Comment) (issues : List GitHubIssue) (k : String) :
    k ∈ matchedKeys comments issues ↔
      (∃ c ∈ comments, c.key = k) ∧ (∃ i ∈ issues, i.key = k) := by
  constructor
  · intro h
    simp only [matchedKeys, List.mem_toFinset, List.mem_map] at h
    obtain ⟨p, hp, hk⟩ := h
    obtain ⟨c, i⟩ := p
    obtain ⟨hc, hd⟩ := (mem_updatesOf comments issues c i).1 hp
    obtain ⟨hmem, hkey⟩ := decideComment_some hd
    simp only at hk
    exact ⟨⟨c, hc, hk⟩, ⟨i, hmem, by rw [hkey, hk]⟩⟩
  · rintro ⟨⟨c, hc, hck⟩, ⟨i, hi, hik⟩⟩
    have hsome : (decideComment issues c).isSome = true :=
      (decideComment_isSome issues c).2 ⟨i, hi, by rw [hik, hck]⟩
    obtain ⟨i', hi'⟩ := Option.isSome_iff_exists.1 hsome
    simp only [matchedKeys, List.mem_toFinset, List.mem_map]
    exact ⟨(c, i'), (mem_updatesOf comments issues c i').2 ⟨hc, hi'⟩, hck⟩

theorem mem_createKeys (comments : List Comment) (issues : List GitHubIssue) (k : String) :
    k ∈ createKeys comments issues ↔
      (∃ c ∈ comments, c.key = k) ∧ ¬ ∃ i ∈ issues, i.key = k := by
  constructor
  · intro h
    simp only [createKeys, List.mem_toFinset, List.mem_map] at h
    obtain ⟨c, hc, hk⟩ := h
    obtain ⟨hcm, hnone⟩ := (mem_createsOf comments issues c).1 hc
    refine ⟨⟨c, hcm, hk⟩, ?_⟩
    rintro ⟨i, hi, hik⟩
    exact (decideComment_eq_none issues c).1 hnone i hi (by rw [hik, hk])
  · rintro ⟨⟨c, hc, hck⟩, hno⟩
    simp only [createKeys, List.mem_toFinset, List.mem_map]
    refine ⟨c, (mem_createsOf comments issues c).2 ⟨hc, ?_⟩, hck⟩
    refine (decideComment_eq_none issues c).2 ?_
    intro i hi hik
    exact hno ⟨i, hi, by rw [hik, hck]⟩

theorem mem_closeKeys (comments : List Comment) (issues : List GitHubIssue) (k : String) :
    k ∈ closeKeys comments issues ↔
      (∃ i ∈ issues, i.key = k) ∧ ¬ ∃ c ∈ comments, c.key = k := by
  constructor
  · intro h
    simp only [closeKeys, List.mem_toFinset, List.mem_map] at h
    obtain ⟨i, hi, hk⟩ := h
    obtain ⟨him, hno⟩ := (mem_closesOf comments issues i).1 hi
    refine ⟨⟨i, him, hk⟩, ?_⟩
    rintro ⟨c, hc, hck⟩
    exact hno ⟨c, hc, by rw [hck, hk]⟩
  · rintro ⟨⟨i, hi, hik⟩, hno⟩
    simp only [closeKeys, List.mem_toFinset, List.mem_map]
    refine ⟨i, (mem_closesOf comments issues i).2 ⟨hi, ?_⟩, hik⟩
    rintro ⟨c, hc, hck⟩
    exact hno ⟨c, hc, by rw [hck, hik]⟩

/-- C6 (confirmed): the three action sets computed by one reconciliation run
partition the keys: matched keys together with create keys are exactly the
annotation keys, matched keys together with close keys are exactly the issue
keys, and the matched, create and close key sets are pairwise disjoint. -/
theorem claim6_partition (comments : List Comment) (issues : List GitHubIssue) :
    matchedKeys comments issues ∪ createKeys comments issues = commentKeys comments ∧
    matchedKeys comments issues ∪ closeKeys comments issues = issueKeys issues ∧
    Disjoint (matchedKeys comments issues) (createKeys comments issues) ∧
    Disjoint (matchedKeys comments issues) (closeKeys comments issues) ∧
    Disjoint (createKeys comments issues) (closeKeys comments issues) := by
  refine ⟨?_, ?_, ?_, ?_, ?_⟩
  · ext k
    rw [Finset.mem_union, mem_matchedKeys, mem_createKeys, mem_commentKeys]
    constructor
    · rintro (⟨hA, _⟩ | ⟨hA, _⟩) <;> exact hA
    · intro hA
      by_cases hB : ∃ i ∈ issues, i.key = k
      · exact Or.inl ⟨hA, hB⟩
      · exact Or.inr ⟨hA, hB⟩
  · ext k
    rw [Finset.mem_union, mem_matchedKeys, mem_closeKeys, mem_issueKeys]
    constructor
    · rintro (⟨_, hB⟩ | ⟨hB, _⟩) <;> exact hB
    · intro hB
      by_cases hA : ∃ c ∈ comments, c.key = k
      · exact Or.inl ⟨hA, hB⟩
      · exact Or.inr ⟨hB, hA⟩
  · rw [Finset.disjoint_left]
    intro k hm hc
    rw [mem_matchedKeys] at hm
    rw [mem_createKeys] at hc
    exact hc.2 hm.2
  · rw [Finset.disjoint_left]
    intro k hm hc
    rw [mem_matchedKeys] at hm
    rw [mem_closeKeys] at hc
    exact hc.2 hm.1
  · rw [Finset.disjoint_left]
    intro k hm hc
    rw [mem_createKeys] at hm
    rw [mem_closeKeys] at hc
    exact hm.2 hc.1

/-- Witness data for the update-always scenario: one annotation and an issue
whose stored title and body are exactly what the annotation generates now. -/
def witComment7 : Comment :=
  { type := "TODO", content := "x", file := "f.ts", line := 1,
    message := "TODO: x", key := "Zi50czox" }

/-- The matching issue of the update-always scenario (content unchanged). -/
def witIssue7 : GitHubIssue :=
  { id := 5, title := (generateIssueContent witComment7).1,
    body := (generateIssueContent witComment7).2, key := "Zi50czox" }

/-- C7 (confirmed): when the current comment list contains exactly one
annotation `a` with a given key and `i` is the issue that `run`'s
`existingIssues.find` selects for that key, reconciliation emits exactly one
update action against `i`, namely the pair `(a, i)`, and the dispatched
update call carries `i`'s id together with a FRESHLY generated title and
body for `a`. No hypothesis relates `a.content` (or `a` at all) to `i.body`:
the update fires even when the annotation's content is textually identical
to what produced the existing issue, because the source has no
content-equality check. -/
theorem claim7_update_always (comments : List Comment) (issues : List GitHubIssue)
    (a : Comment) (i : GitHubIssue)
    (hu : comments.filter (fun c => c.key == a.key) = [a])
    (hf : decideComment issues a = some i) :
    (updatesOf comments issues).filter (fun p => p.2 == i) = [(a, i)] ∧
    (i.id, (generateIssueContent a).1, (generateIssueContent a).2) ∈
      updateCalls comments issues := by
  have hik : i.key = a.key := (decideComment_some hf).2
  have main : ∀ (cs : List Comment), cs.filter (fun c => c.key == a.key) = [a] →
      (updatesOf cs issues).filter (fun p => p.2 == i) = [(a, i)] := by
    intro cs
    induction cs with
    | nil => intro h; simp at h
    | cons c rest ih =>
        intro h
        by_cases hck : c.key = a.key
        · rw [List.filter_cons_of_pos (by simp [hck])] at h
          simp only [List.cons.injEq] at h
          obtain ⟨hca, hrest⟩ := h
          have hdc : decideComment issues c = some i := by
            rw [decideComment_key_congr issues hck]
            exact hf
          have hupd : updatesOf (c :: rest) issues = (c, i) :: updatesOf rest issues := by
            rw [updatesOf, List.filterMap_cons, hdc]
            rfl
          have hnil : (updatesOf rest issues).filter (fun p => p.2 == i) = [] := by
            rw [List.filter_eq_nil_iff]
            rintro ⟨c', i'⟩ hp
            obtain ⟨hc', hd'⟩ := (mem_updatesOf rest issues c' i').1 hp
            simp only [beq_iff_eq]
            intro hii
            have hkey' : c'.key = a.key := by
              have h2 := (decideComment_some hd').2
              rw [hii] at h2
              rw [← h2, hik]
            have hmemf : c' ∈ rest.filter (fun c => c.key == a.key) :=
              List.mem_filter.2 ⟨hc', by simp [hkey']⟩
            rw [hrest] at hmemf
            simp at hmemf
          rw [hupd]
          simp only [List.filter_cons, beq_self_eq_true, if_true, hnil, hca]
        · rw [List.filter_cons_of_neg (by simp [hck])] at h
          have htail := ih h
          rcases hopt : decideComment issues c with _ | i''
          · have hupd : updatesOf (c :: rest) issues = updatesOf rest issues := by
              rw [updatesOf, List.filterMap_cons, hopt]
              rfl
            rw [hupd, htail]
          · have hupd : updatesOf (c :: rest) issues = (c, i'') :: updatesOf rest issues := by
              rw [updatesOf, List.filterMap_cons, hopt]
              rfl
            have hne2 : (i'' == i) = false := by
              simp only [beq_eq_false_iff_ne, ne_eq]
              intro hii
              apply hck
              have h2 := (decideComment_some hopt).2
              rw [hii] at h2
              rw [← h2, hik]
            rw [hupd]
            simp only [List.filter_cons, hne2, if_false]
            exact htail
  have h1 := main comments hu
  refine ⟨h1, ?_⟩
  have hmem : (a, i) ∈ updatesOf comments issues := by
    have hmf : (a, i) ∈ (updatesOf comments issues).filter (fun p => p.2 == i) := by
      rw [h1]; simp
    exact List.mem_of_mem_filter hmf
  rw [updateCalls]
  exact List.mem_map.2 ⟨(a, i), hmem, rfl⟩

/-- C7 (witness): the scenario with an existing issue whose body is textually
identical to what the annotation generates now — the update still fires. -/
theorem claim7_witness :
    (updatesOf [witComment7] [witIssue7]).filter (fun p => p.2 == witIssue7) =
      [(witComment7, witIssue7)] ∧
    (witIssue7.id, (generateIssueContent witComment7).1,
      (generateIssueContent witComment7).2) ∈ updateCalls [witComment7] [witIssue7] :=
  claim7_update_always [witComment7] [witIssue7] witComment7 witIssue7
    (by decide) (by decide)

/-- C3 (counterexample): a run with two current annotations (hence two pending
create actions) and a gateway that throws: the single try/catch of `run`
lets the first failure escape, so only ONE of the two actions is attempted
and a single error message — not an aggregate of per-key failures — is what
`core.setFailed` receives. -/
theorem claim3_counterexample :
    (actionList (extractComments "TODO: a\nTODO: b" "f.ts" ["TODO"]) []).length = 2 ∧
    (execActions (fun _ => Except.error "network")
      (actionList (extractComments "TODO: a\nTODO: b" "f.ts" ["TODO"]) [])).1.length = 1 ∧
    (execActions (fun _ => Except.error "network")
      (actionList (extractComments "TODO: a\nTODO: b" "f.ts" ["TODO"]) [])).2 =
      some "network" := by
  refine ⟨by decide, by decide, by decide⟩

/-- C3 (amended): the source wraps the whole run in one try/catch, so failures
are NOT isolated per key or per file: (1) when a gateway action throws, every
action after it is skipped and the thrown message is the single reported
error; (2) when reading one source file throws, extraction of every file is
abandoned and the error escapes. -/
theorem claim3_single_failure_aborts :
    (∀ (g : Action → Except String Unit) (pre : List Action) (a : Action)
        (post : List Action) (m : String),
      (∀ b ∈ pre, g b = Except.ok ()) → g a = Except.error m →
        execActions g (pre ++ a :: post) = (pre ++ [a], some m)) ∧
    (∀ (readFile : String → Except String String) (pfxs : List String)
        (pre : List String) (f : String) (post : List String) (e : String),
      (∀ b ∈ pre, ∃ content, readFile b = Except.ok content) →
      readFile f = Except.error e →
        extractAll readFile pfxs (pre ++ f :: post) = Except.error e) := by
  constructor
  · intro g pre a post m hpre ha
    induction pre with
    | nil => simp [execActions, ha]
    | cons b t ih =>
        have hb : g b = Except.ok () := hpre b (by simp)
        have ht := ih (fun x hx => hpre x (by simp [hx]))
        simp only [List.cons_append, execActions, hb, List.append_eq, ht]
  · intro readFile pfxs pre f post e hpre herr
    induction pre with
    | nil => simp [extractAll, herr]
    | cons b t ih =>
        obtain ⟨content, hb⟩ := hpre b (by simp)
        have ht := ih (fun x hx => hpre x (by simp [hx]))
        simp only [List.cons_append, extractAll, hb, List.append_eq, ht]

/-- C3 (witness): the abort behavior at concrete failing inputs. -/
theorem claim3_witness :
    execActions (fun _ => Except.error "boom") (Action.close 1 :: [Action.close 2]) =
      ([Action.close 1], some "boom") ∧
    extractAll (fun _ => Except.error "denied") ["TODO"] ("x.ts" :: ["y.ts"]) =
      Except.error "denied" := by
  constructor
  · simpa using claim3_single_failure_aborts.1 (fun _ => Except.error "boom") []
      (Action.close 1) [Action.close 2] "boom" (by simp) rfl
  · simpa using claim3_single_failure_aborts.2 (fun _ => Except.error "denied") ["TODO"] []
      "x.ts" ["y.ts"] "denied" (by simp) rfl

theorem applyUpdate_pair (issues L : List GitHubIssue) (u : Nat × String × String)
    (hL : L.map (fun i => (i.id, i.key)) = issues.map (fun i => (i.id, i.key)))
    (hu : ∀ j ∈ issues, j.id = u.1 → parseIssueKey u.2.2 = j.key) :
    (applyUpdate u L).map (fun i => (i.id, i.key)) =
      issues.map (fun i => (i.id, i.key)) := by
  rw [applyUpdate, List.map_map, ← hL]
  apply List.map_eq_map_iff.mpr
  intro i hi
  by_cases hid : i.id = u.1
  · have hp : ((i.id, i.key) : Nat × String) ∈ issues.map (fun i => (i.id, i.key)) := by
      rw [← hL]
      exact List.mem_map.2 ⟨i, hi, rfl⟩
    obtain ⟨j, hj, hjp⟩ := List.mem_map.1 hp
    simp only [Prod.mk.injEq] at hjp
    obtain ⟨hj1, hj2⟩ := hjp
    have hjj := hu j hj (by rw [hj1, hid])
    simp only [Function.comp_apply, hid, if_true]
    rw [Prod.mk.injEq]
    exact ⟨rfl, hjj.trans hj2⟩
  · simp [Function.comp_apply, hid]

theorem foldl_applyUpdate_pair (issues : List GitHubIssue) :
    ∀ (us : List (Nat × String × String)) (L : List GitHubIssue),
      L.map (fun i => (i.id, i.key)) = issues.map (fun i => (i.id, i.key)) →
      (∀ u ∈ us, ∀ j ∈ issues, j.id = u.1 → parseIssueKey u.2.2 = j.key) →
      (us.foldl (fun st u => applyUpdate u st) L).map (fun i => (i.id, i.key)) =
        issues.map (fun i => (i.id, i.key)) := by
  intro us
  induction us with
  | nil => intro L hL _; simpa using hL
  | cons u t ih =>
      intro L hL hu
      rw [List.foldl_cons]
      exact ih (applyUpdate u L) (applyUpdate_pair issues L u hL (hu u (by simp)))
        (fun v hv => hu v (by simp [hv]))

theorem updateCalls_parse (comments : List Comment) (issues : List GitHubIssue)
    (hrt : ∀ c ∈ comments, parseIssueKey (generateIssueContent c).2 = c.key)
    (hnd : (issues.map (fun i => i.id)).Nodup) :
    ∀ u ∈ updateCalls comments issues, ∀ j ∈ issues, j.id = u.1 →
      parseIssueKey u.2.2 = j.key := by
  intro u hu j hj hid
  rw [updateCalls] at hu
  obtain ⟨p, hp, rfl⟩ := List.mem_map.1 hu
  obtain ⟨c, i⟩ := p
  obtain ⟨hc, hd⟩ := (mem_updatesOf comments issues c i).1 hp
  obtain ⟨hi, hik⟩ := decideComment_some hd
  simp only at hid ⊢
  have hji : j = i := List.inj_on_of_nodup_map hnd hj hi hid
  rw [hrt c hc, hji]
  exact hik.symm

theorem createdIssues_keys (comments : List Comment) (issues : List GitHubIssue)
    (freshIds : Nat → Nat) :
    (createdIssues comments issues freshIds).map (fun i => i.key) =
      (createsOf comments issues).map (fun c => parseIssueKey (generateIssueContent c).2) := by
  rw [createdIssues, List.map_map]
  have hfun : ((fun i : GitHubIssue => i.key) ∘
      (fun p : Nat × String × String =>
        ({ id := freshIds p.1, title := p.2.1, body := p.2.2,
           key := parseIssueKey p.2.2 } : GitHubIssue))) =
      (fun td : String × String => parseIssueKey td.2) ∘ Prod.snd := rfl
  rw [hfun, ← List.map_map, List.enum_map_snd, createCalls, List.map_map]
  rfl

/-- C5 (counterexample): idempotence FAILS for an annotation set containing an
annotation whose content includes the text `Key: `. The first run creates an
issue whose body quotes that content before the marker, so the tracker
parses the WRONG key back out of it; the second run then finds no issue
under the annotation's real key (a fresh create) and finds the mis-keyed
issue matched by nothing (a close). -/
theorem claim5_counterexample :
    createsOf (extractComments "TODO: Key: z" "f.ts" ["TODO"])
      (applyActionsState (extractComments "TODO: Key: z" "f.ts" ["TODO"]) []
        (fun n => n)) ≠ [] ∧
    closesOf (extractComments "TODO: Key: z" "f.ts" ["TODO"])
      (applyActionsState (extractComments "TODO: Key: z" "f.ts" ["TODO"]) []
        (fun n => n)) ≠ [] := by
  refine ⟨by decide, by decide⟩

/-- C5 (amended): reconciliation is idempotent PROVIDED every annotation's
generated body round-trips to its own key (true whenever no annotation
content or context smuggles in a premature `Key: ` marker, see C4) and the
existing issues carry pairwise distinct tracker ids: reconciling the same
annotation set against the tracker state left by the previous run's
create/update/close actions yields no creates and no closes; only the
unconditional updates recur. -/
theorem claim5_idempotent (comments : List Comment) (issues : List GitHubIssue)
    (freshIds : Nat → Nat)
    (hrt : ∀ c ∈ comments, parseIssueKey (generateIssueContent c).2 = c.key)
    (hnd : (issues.map (fun i => i.id)).Nodup) :
    createsOf comments (applyActionsState comments issues freshIds) = [] ∧
    closesOf comments (applyActionsState comments issues freshIds) = [] := by
  have hpair : ((updateCalls comments issues).foldl (fun st u => applyUpdate u st)
        issues).map (fun i => (i.id, i.key)) = issues.map (fun i => (i.id, i.key)) :=
    foldl_applyUpdate_pair issues (updateCalls comments issues) issues rfl
      (updateCalls_parse comments issues hrt hnd)
  have hclose_id : ∀ j ∈ issues,
      (j.id ∈ closeCalls comments issues ↔ j ∈ closesOf comments issues) := by
    intro j hj
    constructor
    · intro hidin
      rw [closeCalls] at hidin
      obtain ⟨j', hj', hj'id⟩ := List.mem_map.1 hidin
      have hj'iss : j' ∈ issues := ((mem_closesOf comments issues j').1 hj').1
      have hj'j : j' = j := List.inj_on_of_nodup_map hnd hj'iss hj hj'id
      rw [← hj'j]
      exact hj'
    · intro hmem
      exact List.mem_map.2 ⟨j, hmem, rfl⟩
  have hA : ∀ c ∈ comments,
      ∃ i' ∈ applyActionsState comments issues freshIds, i'.key = c.key := by
    intro c hc
    rcases hd : decideComment issues c with _ | i0
    · have hcr : c ∈ createsOf comments issues := (mem_createsOf comments issues c).2 ⟨hc, hd⟩
      have hkmem : c.key ∈ (createdIssues comments issues freshIds).map (fun i => i.key) := by
        rw [createdIssues_keys]
        exact List.mem_map.2 ⟨c, hcr, hrt c hc⟩
      obtain ⟨i', hi', hik⟩ := List.mem_map.1 hkmem
      exact ⟨i', List.mem_append_right _ hi', hik⟩
    · obtain ⟨hi0, hk0⟩ := decideComment_some hd
      have hnotclosed : i0 ∉ closesOf comments issues := by
        intro hmem
        exact ((mem_closesOf comments issues i0).1 hmem).2 ⟨c, hc, hk0.symm⟩
      have hidout : i0.id ∉ closeCalls comments issues := by
        intro hin
        exact hnotclosed ((hclose_id i0 hi0).1 hin)
      have hp : ((i0.id, i0.key) : Nat × String) ∈
          ((updateCalls comments issues).foldl (fun st u => applyUpdate u st)
            issues).map (fun i => (i.id, i.key)) := by
        rw [hpair]
        exact List.mem_map.2 ⟨i0, hi0, rfl⟩
      obtain ⟨i', hi', hpp⟩ := List.mem_map.1 hp
      simp only [Prod.mk.injEq] at hpp
      obtain ⟨hid', hkey'⟩ := hpp
      refine ⟨i', List.mem_append_left _ ?_, by rw [hkey', hk0]⟩
      rw [survivingIssues]
      refine List.mem_filter.2 ⟨hi', ?_⟩
      have hcf : (closeCalls comments issues).contains i'.id = false := by
        rw [hid']
        simpa using hidout
      rw [hcf]
      rfl
  have hB : ∀ i' ∈ applyActionsState comments issues freshIds,
      ∃ c ∈ comments, c.key = i'.key := by
    intro i' hi'
    rcases List.mem_append.1 hi' with hs | hcr
    · rw [survivingIssues] at hs
      obtain ⟨hmem, hpred⟩ := List.mem_filter.1 hs
      have hp : ((i'.id, i'.key) : Nat × String) ∈ issues.map (fun i => (i.id, i.key)) := by
        rw [← hpair]
        exact List.mem_map.2 ⟨i', hmem, rfl⟩
      obtain ⟨j, hj, hjp⟩ := List.mem_map.1 hp
      simp only [Prod.mk.injEq] at hjp
      obtain ⟨hjid, hjkey⟩ := hjp
      have hidout : j.id ∉ closeCalls comments issues := by
        rw [hjid]
        intro hin
        have hc2 : (closeCalls comments issues).contains i'.id = true := by simpa using hin
        rw [hc2] at hpred
        simp at hpred
      have hnotcl : j ∉ closesOf comments issues := fun hm => hidout ((hclose_id j hj).2 hm)
      have hex : ∃ c ∈ comments, c.key = j.key := by
        by_contra hno
        exact hnotcl ((mem_closesOf comments issues j).2 ⟨hj, hno⟩)
      obtain ⟨c, hc, hck⟩ := hex
      exact ⟨c, hc, by rw [hck, hjkey]⟩
    · have hkmem : i'.key ∈ (createdIssues comments issues freshIds).map (fun i => i.key) :=
        List.mem_map.2 ⟨i', hcr, rfl⟩
      rw [createdIssues_keys] at hkmem
      obtain ⟨c, hcr', hck⟩ := List.mem_map.1 hkmem
      have hc : c ∈ comments := ((mem_createsOf comments issues c).1 hcr').1
      exact ⟨c, hc, by rw [← hck, hrt c hc]⟩
  constructor
  · rw [createsOf, List.filter_eq_nil_iff]
    intro c hc
    obtain ⟨i', hi', hk⟩ := hA c hc
    have hsome : (decideComment (applyActionsState comments issues freshIds) c).isSome =
        true := (decideComment_isSome _ c).2 ⟨i', hi', hk⟩
    rcases hopt : decideComment (applyActionsState comments issues freshIds) c with _ | i0
    · rw [hopt] at hsome
      simp at hsome
    · simp [hopt]
  · rw [closesOf, List.filter_eq_nil_iff]
    intro i' hi'
    obtain ⟨c, hc, hck⟩ := hB i' hi'
    have hany : comments.any (fun c => c.key == i'.key) = true :=
      List.any_eq_true.2 ⟨c, hc, by simp [hck]⟩
    simp [hany]

/-- C5 (witness): idempotence on a concrete benign annotation set starting
from an empty tracker. -/
theorem claim5_witness :
    createsOf (extractComments "TODO: x" "f.ts" ["TODO"])
      (applyActionsState (extractComments "TODO: x" "f.ts" ["TODO"]) []
        (fun n => n)) = [] ∧
    closesOf (extractComments "TODO: x" "f.ts" ["TODO"])
      (applyActionsState (extractComments "TODO: x" "f.ts" ["TODO"]) []
        (fun n => n)) = [] :=
  claim5_idempotent (extractComments "TODO: x" "f.ts" ["TODO"]) [] (fun n => n)
    (by decide) (by decide)

end C2I
